import Mathlib

/-!
Verification development for the threema-rs repository.

The development shallowly embeds the repository's core algorithms:

* the `flat_bytes` codec (crate `flat-bytes` and the code generated by
  `flat-bytes-derive`) as an interpreter over a deep-embedded schema type
  (`Flat.Schema`), since the derive macro produces one serializer and one
  deserializer per schema shape;
* the discriminant-assignment rule of `flat_enum` (`derive_serialize` /
  `derive_deserialize` in flat-bytes-derive/src/lib.rs);
* the greedy `Text` codec from src/packets.rs;
* message padding and padding removal from `Threema::send_message` and
  `Threema::receive` (src/lib.rs);
* the identity-backup decoder `identity::decrypt` / `Threema::from_backup`;
* the receive loop, the handshake login construction in `Threema::connect`
  and the framed `Threema::send` (src/lib.rs).

Bytes are modelled as `List Nat` with every byte below 256; external
cryptographic primitives (NaCl box seal/open, XSalsa20, PBKDF2, SHA-256)
are parameters of the surrounding model, with their length contracts
as hypotheses where a claim needs them.
-/

/-- Little-endian encoding of `v` on `w` bytes, as `u*::to_le_bytes`
produces it (higher bytes of an in-range value are the base-256 digits). -/
def leBytes : Nat → Nat → List Nat
  | 0, _ => []
  | w + 1, v => v % 256 :: leBytes w (v / 256)

/-- Little-endian interpretation of a byte list, as `u*::from_le_bytes`. -/
def fromLE : List Nat → Nat
  | [] => 0
  | b :: bs => b + 256 * fromLE bs

theorem leBytes_length (w v : Nat) : (leBytes w v).length = w := by
  induction w generalizing v with
  | zero => rfl
  | succ w ih => simp [leBytes, ih]

theorem fromLE_leBytes {w v : Nat} (h : v < 256 ^ w) :
    fromLE (leBytes w v) = v := by
  induction w generalizing v with
  | zero =>
    have : v = 0 := Nat.lt_one_iff.mp (by simpa using h)
    simp [this, leBytes, fromLE]
  | succ w ih =>
    have hdiv : v / 256 < 256 ^ w := by
      apply Nat.div_lt_of_lt_mul
      calc v < 256 ^ (w + 1) := h
        _ = 256 * 256 ^ w := by ring
    simp [leBytes, fromLE, ih hdiv, Nat.mod_add_div]

theorem take_len_append {α : Type} (a b : List α) :
    (a ++ b).take a.length = a := by
  induction a with
  | nil => simp
  | cons x xs ih => simp [ih]

theorem drop_len_append {α : Type} (a b : List α) :
    (a ++ b).drop a.length = b := by
  induction a with
  | nil => simp
  | cons x xs ih => simp [ih]

theorem take_append_le {α : Type} (n : Nat) (a b : List α) (h : n ≤ a.length) :
    (a ++ b).take n = a.take n := by
  induction a generalizing n with
  | nil => simp_all
  | cons x xs ih =>
    cases n with
    | zero => simp
    | succ m => simpa using ih m (by simpa using h)

theorem drop_append_le {α : Type} (n : Nat) (a b : List α) (h : n ≤ a.length) :
    (a ++ b).drop n = a.drop n ++ b := by
  induction a generalizing n with
  | nil => simp_all
  | cons x xs ih =>
    cases n with
    | zero => simp
    | succ m => simpa using ih m (by simpa using h)

namespace Flat

/-- Deep-embedded schema universe of the flat codec.  `uint w` / `sint w`
are the unsigned / signed primitives of `w` bytes (`impl_primitive` in
flat-bytes/src/lib.rs), `bool` the `Flat for bool` impl, `arr` the
`impl<T: Flat> Flat for [T; N]` macro instances, `recNil` / `recCons` a
`#[derive(Flat)]` record as a telescope of its fields in declared order,
and `unionNil` / `unionCons` a `flat_enum!` tagged union as a telescope of
its variants in declared order, each with its resolved tag and its payload
(a record telescope); `w` in a union is the byte width of its `repr`. -/
inductive Schema where
  | uint (w : Nat)
  | sint (w : Nat)
  | bool
  | arr (elem : Schema) (n : Nat)
  | recNil
  | recCons (head tail : Schema)
  | unionNil (w : Nat)
  | unionCons (w : Nat) (tag : Nat) (payload : Schema) (rest : Schema)
deriving DecidableEq, Repr

/-- Runtime values of the codec: unsigned and signed machine integers,
booleans, and telescopes (`nil`/`cons`) for both array elements and record
fields; a union value carries the resolved tag of its variant and the
variant's payload record. -/
inductive Value where
  | uint (v : Nat)
  | sint (v : Int)
  | bool (b : Bool)
  | nil
  | cons (head tail : Value)
  | union (tag : Nat) (payload : Value)
deriving DecidableEq, Repr

/-- `std::mem::size_of` of a schema type, meaningful for the primitive-like
schemas over which the repository instantiates arrays (for those the Rust
memory size equals the serialized size). -/
def staticSize : Schema → Nat
  | .uint w => w
  | .sint w => w
  | .bool => 1
  | .arr s n => n * staticSize s
  | .recNil => 0
  | .recCons h t => staticSize h + staticSize t
  | .unionNil w => w
  | .unionCons w _ _ _ => w

/-- Schemas whose Rust `size_of` equals their serialized size: the element
types at which the repository's `impl_array!` instances are sound (the
generated array deserializer indexes elements at `size_of::<T>() * idx`). -/
def primLike : Schema → Bool
  | .uint _ => true
  | .sint _ => true
  | .bool => true
  | .arr s _ => primLike s
  | _ => false

/-- All variants of a union telescope share the `repr` width `w`. -/
def isUnionW (w : Nat) : Schema → Bool
  | .unionNil w' => w == w'
  | .unionCons w' _ _ r => w == w' && isUnionW w r
  | _ => false

/-- The tags of a union telescope, in declaration order. -/
def unionTags : Schema → List Nat
  | .unionCons _ t _ r => t :: unionTags r
  | _ => []

/-- Schema well-formedness: primitive widths are the Rust ones, array
elements are primitive-like, union `repr` widths are `u8`/`u16`/`u32`,
every tag fits the tag width, and no tag repeats within a union. -/
def wellFormed : Schema → Bool
  | .uint w => w == 1 || w == 2 || w == 4 || w == 8
  | .sint w => w == 1 || w == 2 || w == 4 || w == 8
  | .bool => true
  | .arr s _ => primLike s && wellFormed s
  | .recNil => true
  | .recCons h t => wellFormed h && wellFormed t
  | .unionNil w => w == 1 || w == 2 || w == 4
  | .unionCons w t p r =>
    (w == 1 || w == 2 || w == 4) && decide (t < 256 ^ w) && wellFormed p &&
      wellFormed r && isUnionW w r && !(unionTags r).contains t

mutual

/-- Schema-validity of a value: integers in range, telescopes of the right
length with valid components, and a union value whose tag is one of the
union's variants with a payload valid for that variant. -/
def valid : Schema → Value → Bool
  | .uint w, .uint v => decide (v < 256 ^ w)
  | .sint w, .sint v => decide (-(256 ^ w : Int) ≤ 2 * v ∧ 2 * v < 256 ^ w)
  | .bool, .bool _ => true
  | .arr s n, v => validElems s n v
  | .recNil, .nil => true
  | .recCons hs ts, .cons h t => valid hs h && valid ts t
  | .unionCons w tg p r, .union tag payload =>
    if tag = tg then valid p payload else valid r (.union tag payload)
  | _, _ => false
termination_by s v => (sizeOf v, sizeOf s, 1)

/-- Exactly `n` elements, each valid at the element schema. -/
def validElems (s : Schema) : Nat → Value → Bool
  | 0, .nil => true
  | n + 1, .cons h t => valid s h && validElems s n t
  | _, _ => false
termination_by n v => (sizeOf v, sizeOf s, 0)

end

mutual

/-- The serializer the codec generates: little-endian primitives
(`to_le_bytes`), one byte for `bool`, element/field concatenation for
arrays and records, and for a union the matching variant's tag in
little-endian at the `repr` width followed by its payload
(`derive_serialize`); unreachable shape mismatches yield `[]`. -/
def serialize : Schema → Value → List Nat
  | .uint w, .uint v => leBytes w v
  | .sint w, .sint v => leBytes w (v % (256 ^ w : Int)).toNat
  | .bool, .bool b => [if b then 1 else 0]
  | .arr s _, v => serializeElems s v
  | .recNil, .nil => []
  | .recCons hs ts, .cons h t => serialize hs h ++ serialize ts t
  | .unionCons w tg p r, .union tag payload =>
    if tag = tg then leBytes w tg ++ serialize p payload
    else serialize r (.union tag payload)
  | _, _ => []
termination_by s v => (sizeOf v, sizeOf s, 1)

/-- `self.iter().map(Flat::serialize).flatten()` of the array impl. -/
def serializeElems (s : Schema) : Value → List Nat
  | .cons h t => serialize s h ++ serializeElems s t
  | _ => []
termination_by v => (sizeOf v, sizeOf s, 0)

end

/-- Rust `i*::from_le_bytes`: two's-complement reading of the unsigned
little-endian value `n` at width `w`. -/
def toSigned (w n : Nat) : Int :=
  if 2 * n < 256 ^ w then (n : Int) else (n : Int) - (256 ^ w : Int)

mutual

/-- The deserializer the codec generates, `deserialize_with_size`:
primitives check the length and read little-endian; `bool` reads one byte
and compares with 0; an array reads element `i` at offset
`size_of::<T>() * i` and consumes `size_of::<Self>()` (`impl_array!`);
a record reads its fields in order, each from the remainder left by the
previous one; a union reads the tag, tries the variants in declaration
order, and fails on an unknown tag (`derive_deserialize`). -/
def deserialize : Schema → List Nat → Option (Value × Nat)
  | .uint w, data =>
    if w ≤ data.length then some (.uint (fromLE (data.take w)), w) else none
  | .sint w, data =>
    if w ≤ data.length then some (.sint (toSigned w (fromLE (data.take w))), w)
    else none
  | .bool, data =>
    match data with
    | [] => none
    | b :: _ => some (.bool (b != 0), 1)
  | .arr s n, data => deserializeElems s n data
  | .recNil, _ => some (.nil, 0)
  | .recCons hs ts, data =>
    match deserialize hs data with
    | none => none
    | some (vh, k) =>
      match deserialize ts (data.drop k) with
      | none => none
      | some (vt, m) => some (.cons vh vt, k + m)
  | .unionNil _, _ => none
  | .unionCons w tg p r, data =>
    if w ≤ data.length then
      if fromLE (data.take w) = tg then
        match deserialize p (data.drop w) with
        | none => none
        | some (pv, m) => some (.union tg pv, w + m)
      else deserialize r data
    else none
termination_by s _ => (sizeOf s, 0)

/-- The element loop of the generated array deserializer: element `i` is
read at byte offset `size_of::<T>() * i`, each element's own consumed size
is ignored, and the total consumed size is `n * size_of::<T>()`. -/
def deserializeElems (s : Schema) : Nat → List Nat → Option (Value × Nat)
  | 0, _ => some (.nil, 0)
  | n + 1, data =>
    match deserialize s data with
    | none => none
    | some (v, _) =>
      match deserializeElems s n (data.drop (staticSize s)) with
      | none => none
      | some (vt, m) => some (.cons v vt, staticSize s + m)
termination_by n _ => (sizeOf s, n + 1)

end

theorem take_append_exact {α : Type} (a b : List α) (w : Nat) (h : a.length = w) :
    (a ++ b).take w = a := by
  subst h; exact take_len_append a b

theorem drop_append_exact {α : Type} (a b : List α) (w : Nat) (h : a.length = w) :
    (a ++ b).drop w = b := by
  subst h; exact drop_len_append a b

/-- Serialized size of a primitive-like value equals the Rust memory size
of its type, the quantity the generated array deserializer steps by. -/
theorem serialize_length_primLike (s : Schema) :
    primLike s = true → ∀ v, valid s v = true →
      (serialize s v).length = staticSize s := by
  induction s with
  | uint w =>
    intro _ v hv
    cases v <;> simp [valid] at hv
    simp [serialize, staticSize, leBytes_length]
  | sint w =>
    intro _ v hv
    cases v <;> simp [valid] at hv
    simp [serialize, staticSize, leBytes_length]
  | bool =>
    intro _ v hv
    cases v <;> simp [valid] at hv
    simp [serialize, staticSize]
  | arr s n ihs =>
    intro hp v hv
    simp only [primLike] at hp
    simp only [valid] at hv
    simp only [serialize, staticSize]
    induction v generalizing n with
    | nil =>
      cases n with
      | zero => simp [serializeElems]
      | succ m => simp [validElems] at hv
    | cons h t _ iht =>
      cases n with
      | zero => simp [validElems] at hv
      | succ m =>
        simp only [validElems, Bool.and_eq_true] at hv
        obtain ⟨hh, ht⟩ := hv
        simp only [serializeElems, List.length_append, ihs hp h hh, iht m ht]
        ring
    | uint v => cases n <;> simp [validElems] at hv
    | sint v => cases n <;> simp [validElems] at hv
    | bool b => cases n <;> simp [validElems] at hv
    | union tg p _ => cases n <;> simp [validElems] at hv
  | recNil => intro hp; simp [primLike] at hp
  | recCons hs ts _ _ => intro hp; simp [primLike] at hp
  | unionNil w => intro hp; simp [primLike] at hp
  | unionCons w tg p r _ _ => intro hp; simp [primLike] at hp

/-- Reading back the two's-complement little-endian encoding of an
in-range signed value recovers the value. -/
theorem toSigned_roundtrip {w : Nat} {v : Int}
    (h1 : -(256 ^ w : Int) ≤ 2 * v) (h2 : 2 * v < 256 ^ w) :
    toSigned w (v % (256 ^ w : Int)).toNat = v := by
  have hM : (0 : Int) < (256 ^ w : Int) := by positivity
  rcases le_or_lt 0 v with hsign | hsign
  · have hmod : v % (256 ^ w : Int) = v := Int.emod_eq_of_lt hsign (by omega)
    rw [hmod]
    have hc : 2 * v.toNat < 256 ^ w := by
      have hgoal : ((2 * v.toNat : Nat) : Int) < (((256 ^ w : Nat) : Nat) : Int) := by
        push_cast [Int.toNat_of_nonneg hsign]
        omega
      exact_mod_cast hgoal
    rw [toSigned, if_pos hc, Int.toNat_of_nonneg hsign]
  · have h0 : 0 ≤ v + (256 ^ w : Int) := by omega
    have hstep : (v + (256 ^ w : Int) * 1) % (256 ^ w : Int) = v % (256 ^ w : Int) :=
      Int.add_mul_emod_self_left v ((256 : Int) ^ w) 1
    rw [mul_one] at hstep
    have hmod : v % (256 ^ w : Int) = v + (256 ^ w : Int) := by
      rw [← hstep]
      exact Int.emod_eq_of_lt h0 (by omega)
    rw [hmod]
    have hc : ¬ 2 * (v + (256 ^ w : Int)).toNat < 256 ^ w := by
      intro hcon
      have hgoal : ((2 * (v + (256 ^ w : Int)).toNat : Nat) : Int) <
          (((256 ^ w : Nat) : Nat) : Int) := by exact_mod_cast hcon
      rw [show ((2 * (v + (256 ^ w : Int)).toNat : Nat) : Int) =
          2 * (((v + (256 ^ w : Int)).toNat : Nat) : Int) by push_cast; ring,
        Int.toNat_of_nonneg h0] at hgoal
      have hpow : (((256 ^ w : Nat) : Nat) : Int) = (256 ^ w : Int) := by push_cast; ring
      rw [hpow] at hgoal
      omega
    rw [toSigned, if_neg hc, Int.toNat_of_nonneg h0]
    ring

/-- A valid union value's serialization starts with its tag, little-endian
at the union's `repr` width, whatever variant it selects. -/
theorem serialize_union_head (r : Schema) :
    ∀ (w tag : Nat) (payload : Value),
      isUnionW w r = true → wellFormed r = true →
      valid r (.union tag payload) = true →
      tag < 256 ^ w ∧
        ∃ tl, serialize r (.union tag payload) = leBytes w tag ++ tl := by
  induction r with
  | uint _ => intro w tag payload hu; simp [isUnionW] at hu
  | sint _ => intro w tag payload hu; simp [isUnionW] at hu
  | bool => intro w tag payload hu; simp [isUnionW] at hu
  | arr _ _ _ => intro w tag payload hu; simp [isUnionW] at hu
  | recNil => intro w tag payload hu; simp [isUnionW] at hu
  | recCons _ _ _ _ => intro w tag payload hu; simp [isUnionW] at hu
  | unionNil w' => intro w tag payload _ _ hv; simp [valid] at hv
  | unionCons w' tg p rest _ ihr =>
    intro w tag payload hu hwf hv
    simp only [isUnionW, Bool.and_eq_true, beq_iff_eq] at hu
    obtain ⟨hw, hu'⟩ := hu
    subst hw
    simp only [wellFormed, Bool.and_eq_true, decide_eq_true_eq] at hwf
    obtain ⟨⟨⟨⟨⟨_, htg⟩, _⟩, hwfr⟩, _⟩, _⟩ := hwf
    by_cases htag : tag = tg
    · subst htag
      refine ⟨htg, serialize p payload, ?_⟩
      simp [serialize]
    · have hv' : valid rest (.union tag payload) = true := by
        simpa [valid, htag] using hv
      obtain ⟨hlt, tl, htl⟩ := ihr w tag payload hu' hwfr hv'
      refine ⟨hlt, tl, ?_⟩
      simpa [serialize, htag] using htl

/-- Round-trip through the codec, stated compositionally: deserializing the
serialization of a schema-valid value followed by any trailing bytes
recovers the value and consumes exactly the serialization's length. -/
theorem roundtrip_append (s : Schema) :
    ∀ (v : Value) (rest : List Nat), wellFormed s = true → valid s v = true →
      deserialize s (serialize s v ++ rest) = some (v, (serialize s v).length) := by
  induction s with
  | uint w =>
    intro v rest _ hv
    cases v <;> simp [valid] at hv
    rename_i n
    have hg : w ≤ (leBytes w n ++ rest).length := by simp [leBytes_length]
    simp [serialize, deserialize, hg, take_append_exact _ rest w (leBytes_length w n),
      fromLE_leBytes hv, leBytes_length]
  | sint w =>
    intro v rest _ hv
    cases v <;> simp [valid] at hv
    rename_i i
    obtain ⟨h1, h2⟩ := hv
    have hM : (0 : Int) < (256 ^ w : Int) := by positivity
    have hnn : 0 ≤ i % (256 ^ w : Int) := Int.emod_nonneg i (ne_of_gt hM)
    have hlt : i % (256 ^ w : Int) < (256 ^ w : Int) := Int.emod_lt_of_pos i hM
    have hn : (i % (256 ^ w : Int)).toNat < 256 ^ w := by
      have hpow : (((256 ^ w : Nat) : Nat) : Int) = (256 ^ w : Int) := by push_cast; ring
      omega
    have hg : w ≤ (leBytes w (i % (256 ^ w : Int)).toNat ++ rest).length := by
      simp [leBytes_length]
    simp [serialize, deserialize, hg,
      take_append_exact _ rest w (leBytes_length w (i % (256 ^ w : Int)).toNat),
      fromLE_leBytes hn, toSigned_roundtrip h1 h2, leBytes_length]
  | bool =>
    intro v rest _ hv
    cases v <;> simp [valid] at hv
    rename_i b
    cases b <;> simp [serialize, deserialize]
  | arr s n ihs =>
    intro v rest hwf hv
    simp only [wellFormed, Bool.and_eq_true] at hwf
    obtain ⟨hp, hwfs⟩ := hwf
    simp only [valid] at hv
    simp only [serialize, deserialize]
    induction v generalizing n rest with
    | nil =>
      cases n with
      | zero => simp [serializeElems, deserializeElems]
      | succ m => simp [validElems] at hv
    | cons h t _ iht =>
      cases n with
      | zero => simp [validElems] at hv
      | succ m =>
        simp only [validElems, Bool.and_eq_true] at hv
        obtain ⟨hh, ht⟩ := hv
        have hlen : (serialize s h).length = staticSize s :=
          serialize_length_primLike s hp h hh
        simp only [serializeElems, deserializeElems, List.append_assoc]
        rw [ihs h (serializeElems s t ++ rest) hwfs hh]
        rw [drop_append_exact (serialize s h) (serializeElems s t ++ rest)
          (staticSize s) hlen]
        rw [iht m rest ht]
        simp [List.length_append, hlen]
    | uint x => cases n <;> simp [validElems] at hv
    | sint x => cases n <;> simp [validElems] at hv
    | bool b => cases n <;> simp [validElems] at hv
    | union tg p _ => cases n <;> simp [validElems] at hv
  | recNil =>
    intro v rest _ hv
    cases v <;> simp [valid] at hv
    simp [serialize, deserialize]
  | recCons hs ts ihh iht =>
    intro v rest hwf hv
    simp only [wellFormed, Bool.and_eq_true] at hwf
    obtain ⟨hwfh, hwft⟩ := hwf
    cases v <;> simp [valid] at hv
    rename_i vh vt
    obtain ⟨hvh, hvt⟩ := hv
    simp only [serialize, deserialize, List.append_assoc,
      ihh vh (serialize ts vt ++ rest) hwfh hvh,
      drop_len_append (serialize hs vh) (serialize ts vt ++ rest),
      iht vt rest hwft hvt, List.length_append]
  | unionNil w =>
    intro v rest _ hv
    cases v <;> simp [valid] at hv
  | unionCons w tg p r ihp ihr =>
    intro v rest hwf hv
    have hwf' := hwf
    simp only [wellFormed, Bool.and_eq_true, decide_eq_true_eq] at hwf'
    obtain ⟨⟨⟨⟨⟨_, htg⟩, hwfp⟩, hwfr⟩, hiso⟩, _⟩ := hwf'
    cases v with
    | uint x => simp [valid] at hv
    | sint x => simp [valid] at hv
    | bool b => simp [valid] at hv
    | nil => simp [valid] at hv
    | cons h t => simp [valid] at hv
    | union tag payload =>
    simp only [valid] at hv
    by_cases htag : tag = tg
    · subst htag
      rw [if_pos rfl] at hv
      have hser : serialize (.unionCons w tag p r) (.union tag payload) =
          leBytes w tag ++ serialize p payload := by
        simp [serialize]
      rw [hser]
      have hg : w ≤ ((leBytes w tag ++ serialize p payload) ++ rest).length := by
        simp [leBytes_length]
      simp only [deserialize, List.append_assoc]
      rw [if_pos (by simpa [leBytes_length] using hg)]
      rw [take_append_exact (leBytes w tag) (serialize p payload ++ rest) w
        (leBytes_length w tag)]
      rw [fromLE_leBytes htg, if_pos rfl]
      rw [drop_append_exact (leBytes w tag) (serialize p payload ++ rest) w
        (leBytes_length w tag)]
      rw [ihp payload rest hwfp hv]
      simp [leBytes_length]
    · rw [if_neg htag] at hv
      have hser : serialize (.unionCons w tg p r) (.union tag payload) =
          serialize r (.union tag payload) := by
        simp [serialize, htag]
      obtain ⟨hlt, tl, htl⟩ := serialize_union_head r w tag payload hiso hwfr hv
      rw [hser, htl]
      have hg : w ≤ ((leBytes w tag ++ tl) ++ rest).length := by
        simp [leBytes_length]
      simp only [deserialize, List.append_assoc]
      rw [if_pos (by simpa [leBytes_length] using hg)]
      rw [take_append_exact (leBytes w tag) (tl ++ rest) w (leBytes_length w tag)]
      rw [fromLE_leBytes hlt, if_neg htag]
      rw [← List.append_assoc, ← htl]
      exact ihr (.union tag payload) rest hwfr hv

/-- A successful primitive-like deserialization consumes exactly the static
size, which therefore fits in the input. -/
theorem deserialize_consumed_primLike (s : Schema) :
    primLike s = true → ∀ data v k, deserialize s data = some (v, k) →
      k = staticSize s ∧ staticSize s ≤ data.length := by
  induction s with
  | uint w =>
    intro _ data v k h
    simp only [deserialize] at h
    split at h
    · rename_i hle
      injection h with h'
      injection h' with _ h2
      exact ⟨by simpa [staticSize] using h2.symm, by simpa [staticSize] using hle⟩
    · exact absurd h (by simp)
  | sint w =>
    intro _ data v k h
    simp only [deserialize] at h
    split at h
    · rename_i hle
      injection h with h'
      injection h' with _ h2
      exact ⟨by simpa [staticSize] using h2.symm, by simpa [staticSize] using hle⟩
    · exact absurd h (by simp)
  | bool =>
    intro _ data v k h
    cases data with
    | nil => simp [deserialize] at h
    | cons b rest =>
      simp only [deserialize] at h
      injection h with h'
      injection h' with _ h2
      exact ⟨by simpa [staticSize] using h2.symm, by simp [staticSize]⟩
  | arr s n ihs =>
    intro hp data v k h
    simp only [primLike] at hp
    simp only [deserialize] at h
    suffices H : ∀ n data v k, deserializeElems s n data = some (v, k) →
        k = n * staticSize s ∧ n * staticSize s ≤ data.length by
      have := H n data v k h
      simpa [staticSize] using this
    clear h
    intro n
    induction n with
    | zero =>
      intro data v k h
      simp only [deserializeElems] at h
      injection h with h'
      injection h' with _ h2
      exact ⟨by simpa using h2.symm, by simp⟩
    | succ m ihm =>
      intro data v k h
      simp only [deserializeElems] at h
      split at h
      · exact absurd h (by simp)
      · rename_i v1 k1 heq
        split at h
        · exact absurd h (by simp)
        · rename_i vt mt heqt
          injection h with h'
          injection h' with _ h2
          obtain ⟨hk1, hle1⟩ := ihs hp data v1 k1 heq
          obtain ⟨hkt, hlet⟩ := ihm _ vt mt heqt
          rw [List.length_drop] at hlet
          constructor
          · rw [← h2, hkt]; ring
          · have : (m + 1) * staticSize s = staticSize s + m * staticSize s := by ring
            omega
  | recNil =>
    intro hp; simp [primLike] at hp
  | recCons _ _ _ _ => intro hp; simp [primLike] at hp
  | unionNil _ => intro hp; simp [primLike] at hp
  | unionCons _ _ _ _ _ _ => intro hp; simp [primLike] at hp

/-- A successful deserialization never consumes more bytes than the input
holds. -/
theorem deserialize_consumed_le (s : Schema) :
    wellFormed s = true → ∀ data v k, deserialize s data = some (v, k) →
      k ≤ data.length := by
  induction s with
  | uint w =>
    intro _ data v k h
    simp only [deserialize] at h
    split at h
    · injection h with h'
      injection h' with _ h2
      omega
    · exact absurd h (by simp)
  | sint w =>
    intro _ data v k h
    simp only [deserialize] at h
    split at h
    · injection h with h'
      injection h' with _ h2
      omega
    · exact absurd h (by simp)
  | bool =>
    intro _ data v k h
    cases data with
    | nil => simp [deserialize] at h
    | cons b rest =>
      simp only [deserialize] at h
      injection h with h'
      injection h' with _ h2
      simp [← h2]
  | arr s n _ =>
    intro hwf data v k h
    simp only [wellFormed, Bool.and_eq_true] at hwf
    have hp : primLike (Schema.arr s n) = true := by simpa [primLike] using hwf.1
    obtain ⟨hk, hle⟩ := deserialize_consumed_primLike (Schema.arr s n) hp data v k h
    omega
  | recNil =>
    intro _ data v k h
    simp only [deserialize] at h
    injection h with h'
    injection h' with _ h2
    omega
  | recCons hs ts ihh iht =>
    intro hwf data v k h
    simp only [wellFormed, Bool.and_eq_true] at hwf
    obtain ⟨hwfh, hwft⟩ := hwf
    simp only [deserialize] at h
    split at h
    · exact absurd h (by simp)
    · rename_i vh k1 heq
      split at h
      · exact absurd h (by simp)
      · rename_i vt m heqt
        injection h with h'
        injection h' with _ h2
        have h1 := ihh hwfh data vh k1 heq
        have h2' := iht hwft _ vt m heqt
        rw [List.length_drop] at h2'
        omega
  | unionNil _ =>
    intro _ data v k h
    simp [deserialize] at h
  | unionCons w tg p r ihp ihr =>
    intro hwf data v k h
    simp only [wellFormed, Bool.and_eq_true, decide_eq_true_eq] at hwf
    obtain ⟨⟨⟨⟨⟨_, _⟩, hwfp⟩, hwfr⟩, _⟩, _⟩ := hwf
    simp only [deserialize] at h
    split at h
    · split at h
      · split at h
        · exact absurd h (by simp)
        · rename_i pv m heq
          injection h with h'
          injection h' with _ h2
          have hm := ihp hwfp _ pv m heq
          rw [List.length_drop] at hm
          omega
      · exact ihr hwfr data v k h
    · exact absurd h (by simp)

/-- Deserialization in this codec is insensitive to trailing extra input:
a successful parse of `data` parses identically from `data ++ ext`. -/
theorem deserialize_extend (s : Schema) :
    wellFormed s = true → ∀ data ext v k, deserialize s data = some (v, k) →
      deserialize s (data ++ ext) = some (v, k) := by
  induction s with
  | uint w =>
    intro _ data ext v k h
    simp only [deserialize] at h ⊢
    split at h
    · rename_i hle
      rw [if_pos (by simp; omega), take_append_le w data ext hle]
      exact h
    · exact absurd h (by simp)
  | sint w =>
    intro _ data ext v k h
    simp only [deserialize] at h ⊢
    split at h
    · rename_i hle
      rw [if_pos (by simp; omega), take_append_le w data ext hle]
      exact h
    · exact absurd h (by simp)
  | bool =>
    intro _ data ext v k h
    cases data with
    | nil => simp [deserialize] at h
    | cons b rest => simpa [deserialize] using h
  | arr s n ihs =>
    intro hwf data ext v k h
    simp only [wellFormed, Bool.and_eq_true] at hwf
    obtain ⟨hp, hwfs⟩ := hwf
    simp only [deserialize] at h ⊢
    induction n generalizing data v k with
    | zero => simpa [deserializeElems] using h
    | succ m ihm =>
      simp only [deserializeElems] at h ⊢
      split at h
      · exact absurd h (by simp)
      · rename_i v1 k1 heq
        split at h
        · exact absurd h (by simp)
        · rename_i vt mt heqt
          rw [ihs hwfs data ext v1 k1 heq]
          have hle : staticSize s ≤ data.length :=
            (deserialize_consumed_primLike s hp data v1 k1 heq).2
          rw [drop_append_le (staticSize s) data ext hle]
          rw [ihm _ vt mt heqt]
          exact h
  | recNil =>
    intro _ data ext v k h
    simpa [deserialize] using h
  | recCons hs ts ihh iht =>
    intro hwf data ext v k h
    simp only [wellFormed, Bool.and_eq_true] at hwf
    obtain ⟨hwfh, hwft⟩ := hwf
    simp only [deserialize] at h ⊢
    split at h
    · exact absurd h (by simp)
    · rename_i vh k1 heq
      split at h
      · exact absurd h (by simp)
      · rename_i vt m heqt
        have h1 := ihh hwfh data ext vh k1 heq
        have hle : k1 ≤ data.length := deserialize_consumed_le hs hwfh data vh k1 heq
        have h2 := iht hwft (List.drop k1 data) ext vt m heqt
        simp only [h1, drop_append_le k1 data ext hle, h2]
        exact h
  | unionNil _ =>
    intro _ data ext v k h
    simp [deserialize] at h
  | unionCons w tg p r ihp ihr =>
    intro hwf data ext v k h
    have hwf' := hwf
    simp only [wellFormed, Bool.and_eq_true, decide_eq_true_eq] at hwf'
    obtain ⟨⟨⟨⟨⟨_, _⟩, hwfp⟩, hwfr⟩, _⟩, _⟩ := hwf'
    simp only [deserialize] at h ⊢
    split at h
    · rename_i hle
      rw [if_pos (by simp; omega), take_append_le w data ext hle]
      split at h
      · rename_i htag
        rw [if_pos htag]
        split at h
        · exact absurd h (by simp)
        · rename_i pv m heq
          rw [drop_append_le w data ext hle]
          rw [ihp hwfp _ ext pv m heq]
          exact h
      · rename_i htag
        rw [if_neg htag]
        exact ihr hwfr data ext v k h
    · exact absurd h (by simp)

/-- Removing the last byte of a serialized schema-valid value makes
deserialization fail: every prefix strictly shorter than the serialization
parses to nothing at all. -/
theorem deserialize_truncated (s : Schema) (v : Value)
    (hwf : wellFormed s = true) (hv : valid s v = true)
    (hne : serialize s v ≠ []) :
    deserialize s (serialize s v).dropLast = none := by
  by_contra hcon
  obtain ⟨⟨v', k⟩, hvk⟩ := Option.ne_none_iff_exists'.mp hcon
  have hext := deserialize_extend s hwf (serialize s v).dropLast
    [(serialize s v).getLast hne] v' k hvk
  rw [List.dropLast_append_getLast hne] at hext
  have hrt := roundtrip_append s v [] hwf hv
  rw [List.append_nil] at hrt
  rw [hrt] at hext
  injection hext with hext'
  injection hext' with _ hk
  have hble := deserialize_consumed_le s hwf _ v' k hvk
  rw [List.length_dropLast] at hble
  have hpos : 0 < (serialize s v).length := List.length_pos.mpr hne
  omega

/-- Discriminant assignment of `derive_serialize` / `derive_deserialize`
(flat-bytes-derive/src/lib.rs): `last_idx` starts at 0 and a variant
without an explicit integer discriminant takes `last_idx + 1`; either way
`last_idx` becomes that variant's value. -/
def assignDiscs (last : Nat) : List (Option Nat) → List Nat
  | [] => []
  | d :: rest =>
    let t := d.getD (last + 1)
    t :: assignDiscs t rest

/-- The union schema `flat_enum!` produces from a variant list (each an
optional explicit discriminant plus a payload record schema), with the
discriminants resolved exactly as the macro resolves them, shared by the
generated serializer and deserializer. -/
def macroUnionSchema (w : Nat) : Nat → List (Option Nat × Schema) → Schema
  | _, [] => .unionNil w
  | last, (d, p) :: rest =>
    let t := d.getD (last + 1)
    .unionCons w t p (macroUnionSchema w t rest)

theorem macroUnionSchema_tags (w : Nat) :
    ∀ (last : Nat) (vars : List (Option Nat × Schema)),
      unionTags (macroUnionSchema w last vars) =
        assignDiscs last (vars.map Prod.fst) := by
  intro last vars
  induction vars generalizing last with
  | nil => simp [macroUnionSchema, assignDiscs, unionTags]
  | cons v rest ih =>
    obtain ⟨d, p⟩ := v
    simp [macroUnionSchema, assignDiscs, unionTags, ih]

theorem macroUnionSchema_isUnionW (w : Nat) :
    ∀ (last : Nat) (vars : List (Option Nat × Schema)),
      isUnionW w (macroUnionSchema w last vars) = true := by
  intro last vars
  induction vars generalizing last with
  | nil => simp [macroUnionSchema, isUnionW]
  | cons v rest ih =>
    obtain ⟨d, p⟩ := v
    simp [macroUnionSchema, isUnionW, ih]

end Flat

namespace Threema

/-- Whether a continuation byte of a UTF-8 sequence is in `0x80..0xBF`. -/
def isCont (b : Nat) : Bool := 128 ≤ b && b < 192

/-- UTF-8 validity of a byte sequence, the check `String::from_utf8`
performs: ASCII, two-, three- and four-byte sequences with the standard
exclusions of overlong forms, surrogates and code points above U+10FFFF. -/
def utf8Valid : List Nat → Bool
  | [] => true
  | b :: rest =>
    if b < 128 then utf8Valid rest
    else if b < 194 then false
    else if b < 224 then
      match rest with
      | c1 :: r => isCont c1 && utf8Valid r
      | [] => false
    else if b < 240 then
      match rest with
      | c1 :: c2 :: r =>
        (if b = 224 then 160 ≤ c1 && c1 < 192
         else if b = 237 then 128 ≤ c1 && c1 < 160
         else isCont c1) && isCont c2 && utf8Valid r
      | _ => false
    else if b < 245 then
      match rest with
      | c1 :: c2 :: c3 :: r =>
        (if b = 240 then 144 ≤ c1 && c1 < 192
         else if b = 244 then 128 ≤ c1 && c1 < 144
         else isCont c1) && isCont c2 && isCont c3 && utf8Valid r
      | _ => false
    else false

/-- The `Text` end-to-end message body (src/packets.rs); the `String`
content is modelled by its UTF-8 byte sequence. -/
structure Text where
  message : List Nat
deriving DecidableEq, Repr

/-- `Text::serialize`: the raw UTF-8 bytes, no length prefix. -/
def Text.serialize (t : Text) : List Nat := t.message

/-- `Text::deserialize_with_size`: `String::from_utf8(data.to_owned())`,
greedily consuming the whole input. -/
def Text.deserialize_with_size (data : List Nat) : Option (Text × Nat) :=
  if utf8Valid data then some (⟨data⟩, data.length) else none

/-- The padding step of `Threema::send_message` (src/lib.rs:385-387):
`pad = randombytes_uniform(32)` — the uniform draw over `0..=31` is the
`draw` argument — and `data.append(&mut vec![pad; pad as usize])`. -/
def padMessage (draw : Nat) (data : List Nat) : List Nat :=
  data ++ List.replicate draw draw

/-- Result of the padding-strip step of `Threema::receive`; `panicked`
marks an index/underflow panic of the Rust code. -/
inductive DepadResult where
  | panicked
  | ok (data : List Nat)
deriving DecidableEq, Repr

/-- The padding strip of `Threema::receive` (src/lib.rs:468-469):
`let pad = *data.last().unwrap() as usize;` panics on an empty plaintext,
`&data[..data.len() - pad]` panics when `pad` exceeds the length, and no
other validation of `pad` is performed. -/
def depad (data : List Nat) : DepadResult :=
  match data.getLast? with
  | none => .panicked
  | some pad => if data.length < pad then .panicked
                else .ok (data.take (data.length - pad))

/-- The error kinds of `threema::Error` (src/lib.rs); the `Io` and
`ParseError` payloads are irrelevant to the claims and omitted. -/
inductive ErrorK where
  | InvalidPrivateKey
  | InvalidPublicKey
  | InvalidBackupOrPassword
  | Io
  | ParseError
  | RequestError
  | InvalidID
  | NotConnected
  | DecryptionFailed
deriving DecidableEq, Repr

/-- Character normalization of `identity::base32` (src/identity.rs):
`'0' → 'O'`, `'1' → 'I'`, otherwise `to_uppercase` (modelled on ASCII
letters; other code points pass through and then fail the alphabet
lookup). Characters are their code points. -/
def mapChar (c : Nat) : Nat :=
  if c = 48 then 79
  else if c = 49 then 73
  else if 97 ≤ c ∧ c ≤ 122 then c - 32
  else c

/-- `alphabet.find(c)` over `ABCDEFGHIJKLMNOPQRSTUVWXYZ234567`. -/
def alphaIdx (c : Nat) : Option Nat :=
  if 65 ≤ c ∧ c ≤ 90 then some (c - 65)
  else if 50 ≤ c ∧ c ≤ 55 then some (c - 50 + 26)
  else none

/-- The bit-repacking loop of `identity::base32`: `skip`/`byte` carry the
loop state, `out` the bytes pushed so far; `u8` shifts wrap modulo 256. -/
def base32Go : List Nat → Nat → Nat → List Nat → Option (List Nat)
  | [], _, _, out => some out
  | c :: rest, skip, byte, out =>
    match alphaIdx (mapChar c) with
    | none => none
    | some val0 =>
      let val := (val0 <<< 3) % 256
      let byte1 := byte ||| (val >>> skip)
      let skip1 := skip + 5
      if 8 ≤ skip1 then
        let out1 := out ++ [byte1]
        let skip2 := skip1 - 8
        let byte2 := if 0 < skip2 then (val <<< (5 - skip2)) % 256 else 0
        base32Go rest skip2 byte2 out1
      else base32Go rest skip1 byte1 out

/-- `identity::base32` on a list of character code points. -/
def base32 (input : List Nat) : Option (List Nat) := base32Go input 0 0 []

/-- Outcome of `identity::decrypt`; `panicked` marks a `split_at` or
index-out-of-bounds panic of the Rust code. -/
inductive DecryptOutcome where
  | panicked
  | failed
  | ok (id : List Nat) (key : List Nat)
deriving DecidableEq, Repr

/-- `identity::decrypt` (src/identity.rs) with the crypto collaborators as
parameters: `streamXor salt ct` models the XSalsa20 XOR-stream under the
PBKDF2-HMAC-SHA256 key derived from the password and `salt` (length
preserving for the real cipher), and `hashPair id key` models
`SHA256(id || key)`.  The length checks mark exactly the places where the
Rust code panics: `split_at(8)` on the decoded bytes, `split_at(8)` and
`split_at(32)` on the decrypted plaintext, and the `expected_hash[0]` /
`expected_hash[1]` indexing (the second is reached only when the first
byte matches, because `||` short-circuits). -/
def decryptModel (streamXor : List Nat → List Nat → List Nat)
    (hashPair : List Nat → List Nat → List Nat)
    (input : List Nat) : DecryptOutcome :=
  let stripped := input.filter (fun c => c ≠ 45)
  match base32 stripped with
  | none => .failed
  | some decoded =>
    if decoded.length < 8 then .panicked
    else
      let salt := decoded.take 8
      let plain := streamXor salt (decoded.drop 8)
      if plain.length < 8 then .panicked
      else if plain.length < 40 then .panicked
      else
        let id := plain.take 8
        let key := (plain.drop 8).take 32
        let hash := hashPair id key
        match plain.drop 40 with
        | [] => .panicked
        | [e0] => if e0 ≠ hash.getD 0 0 then .failed else .panicked
        | e0 :: e1 :: _ =>
          if e0 ≠ hash.getD 0 0 ∨ e1 ≠ hash.getD 1 0 then .failed
          else if utf8Valid id then .ok id key else .failed

/-- `ThreemaID::from_slice`: 8 bytes over `A-Z0-9`. -/
def threemaIdOk (id : List Nat) : Bool :=
  id.length == 8 && id.all (fun c => (65 ≤ c && c ≤ 90) || (48 ≤ c && c ≤ 57))

/-- Outcome of `Threema::from_backup`. -/
inductive BackupOutcome where
  | panicked
  | err (e : ErrorK)
  | ok (id : List Nat) (key : List Nat)
deriving DecidableEq, Repr

/-- `Threema::from_backup` (src/lib.rs): `identity::decrypt(...)` mapped to
`InvalidBackupOrPassword` on `None`, then `ThreemaID::from_string` which
can reject the decrypted identity with `InvalidID`; the 32-byte key always
satisfies `PrivateKey::from_slice`. -/
def fromBackupModel (streamXor : List Nat → List Nat → List Nat)
    (hashPair : List Nat → List Nat → List Nat)
    (input : List Nat) : BackupOutcome :=
  match decryptModel streamXor hashPair input with
  | .panicked => .panicked
  | .failed => .err .InvalidBackupOrPassword
  | .ok id key => if threemaIdOk id then .ok id key else .err .InvalidID

/-- The end-to-end envelope header (src/packets.rs `Header`): byte-array
fields as byte lists, `timestamp` and `flags` as `u32` values. -/
structure Header where
  sender : List Nat
  receiver : List Nat
  msg_id : List Nat
  timestamp : Nat
  flags : Nat
  nickname : List Nat
  nonce : List Nat
deriving DecidableEq, Repr

/-- The transport packet union (src/packets.rs `Packet`), with the
discriminants the `flat_enum!` invocation declares.  `Threema::receive` in
src/lib.rs names the `Header`-carrying and ack variants `OutgoingMessage` /
`IncomingMessage` / `IncomingMessageAck` / `OutgoingMessageAck` /
`QueueSendComplete`; by discriminant these are `ClientToServer` (1),
`ServerToClient` (2), `ClientAck` (0x82), `ServerAck` (0x81) and
`ConnectionEstablished` (0xd0). -/
inductive Packet where
  | EchoRequest (v : Nat)
  | EchoReply (v : Nat)
  | ClientToServer (h : Header)
  | ServerToClient (h : Header)
  | ServerAck (id : List Nat) (mid : List Nat)
  | ClientAck (id : List Nat) (mid : List Nat)
  | ConnectionEstablished
  | DublicateConnection
  | Alert
deriving DecidableEq, Repr

/-- The `u32` wire tag of each packet variant, as declared in the
`flat_enum!` invocation in src/packets.rs. -/
def packetTag : Packet → Nat
  | .EchoRequest _ => 0
  | .EchoReply _ => 0x80
  | .ClientToServer _ => 1
  | .ServerToClient _ => 2
  | .ServerAck _ _ => 0x81
  | .ClientAck _ _ => 0x82
  | .ConnectionEstablished => 0xd0
  | .DublicateConnection => 0xe0
  | .Alert => 0xe1

/-- `MessageStatus` (src/packets.rs): `Delivered = 1`, then successor
discriminants. -/
inductive MessageStatus where
  | Delivered
  | Read
  | Approved
  | Disapproved
deriving DecidableEq, Repr

/-- The end-to-end message union (src/packets.rs `Message`).  JSON-bodied
payloads (`Ballot`, `BallotUpdates`, `File`) are modelled as their raw
byte content, which the claims never inspect. -/
inductive Message where
  | Text (t : Text)
  | Image
  | Location
  | Video
  | Audio
  | BallotCreate (poll_id : List Nat) (details : List Nat)
  | BallotVote (sender : List Nat) (poll_id : List Nat) (updates : List Nat)
  | File (f : List Nat)
  | ContactSetPhoto
  | ContactDeletePhoto
  | ContactRequestPhoto
  | GroupText
  | GroupLocation
  | GroupImage
  | GroupVideo
  | GroupAudio
  | GroupFile
  | GroupCreate
  | GroupRename
  | GroupLeave
  | GroupAddMember
  | GroupRemoveMember
  | GroupDestroy
  | GroupSetPhoto
  | GroupRequestSync
  | GroupBallotCreate
  | GroupBallotVote
  | GroupDeletePhoto
  | VoipCallOffer
  | VoipCallAnswer
  | VoipIceCandiates
  | VoipCallHangup
  | VoipCallRinging
  | DeliveryReceipt (status : MessageStatus) (mid : List Nat)
  | TypingNotification
deriving DecidableEq, Repr

/-- What `Threema::receive` returns for a delivered message. -/
structure ServerMessage where
  msg_id : List Nat
  sender : List Nat
  data : Message
deriving DecidableEq, Repr

/-- Frames the receive loop writes back: the transport ack
(`send_ack`, `Packet::IncomingMessageAck` = `ClientAck`) and the
end-to-end delivery receipt (`confirm_receipt`). -/
inductive Effect where
  | ackSent (receiver : List Nat) (mid : List Nat)
  | receiptSent (receiver : List Nat) (mid : List Nat)
deriving DecidableEq, Repr

/-- Outcome of `Threema::get_peer_key`: `fetch_peer_key` calls
`rest::request(...).unwrap()`, which panics on a request error;
`PublicKey::from_slice(...).ok_or(Error::InvalidPublicKey)` can fail. -/
inductive PeerKeyRes where
  | panicked
  | invalidKey
  | ok
deriving DecidableEq, Repr

/-- External collaborators of the receive path: the directory lookup, the
NaCl box open of the envelope ciphertext under the header nonce, and the
`Message` deserializer `Message::deserialize_with_size` (whose success the
receipt claim conditions on). -/
structure Env where
  peerKey : PeerKeyRes
  openMsg : List Nat → Option (List Nat)
  parseMsg : List Nat → Option (Message × Nat)

/-- Outcome of handling one inbound `IncomingMessage` frame. -/
inductive HandleOutcome where
  | panic
  | fail (e : ErrorK)
  | ok (m : ServerMessage)
deriving Repr

/-- The `Packet::IncomingMessage(hdr)` arm of `Threema::receive`
(src/lib.rs): ack the sender, resolve the peer key, open the envelope
(`DecryptionFailed` on failure), strip padding (unchecked; may panic), run
`Message::deserialize_with_size` (`ParseError` on failure), then send a
delivery receipt unless the message is a `TypingNotification` or a
`DeliveryReceipt`, and return the message.  Writes that the model performs
are collected as effects and assumed not to raise I/O errors. -/
def handleIncoming (env : Env) (hdr : Header) (payload : List Nat) :
    List Effect × HandleOutcome :=
  let eff : List Effect := [.ackSent hdr.sender hdr.msg_id]
  match env.peerKey with
  | .panicked => (eff, .panic)
  | .invalidKey => (eff, .fail .InvalidPublicKey)
  | .ok =>
    match env.openMsg payload with
    | none => (eff, .fail .DecryptionFailed)
    | some plain =>
      match depad plain with
      | .panicked => (eff, .panic)
      | .ok body =>
        match env.parseMsg body with
        | none => (eff, .fail .ParseError)
        | some (msg, _) =>
          match msg with
          | .TypingNotification =>
            (eff, .ok ⟨hdr.msg_id, hdr.sender, msg⟩)
          | .DeliveryReceipt _ _ =>
            (eff, .ok ⟨hdr.msg_id, hdr.sender, msg⟩)
          | _ =>
            (eff ++ [.receiptSent hdr.sender hdr.msg_id],
              .ok ⟨hdr.msg_id, hdr.sender, msg⟩)

/-- Result of running the receive loop over a finite list of decrypted
inbound frames: a returned message, a surfaced error, a panic, or the
loop consuming all supplied frames and pulling for the next one. -/
inductive ReceiveOutcome where
  | msg (effects : List Effect) (m : ServerMessage)
  | fail (effects : List Effect) (e : ErrorK)
  | panic
  | outOfInput (effects : List Effect)
deriving Repr

/-- The `loop` of `Threema::receive` (src/lib.rs) over a list of already
deframed packets: `IncomingMessage` (= `ServerToClient`) is handled and
returned, `QueueSendComplete` (= `ConnectionEstablished`, 0xd0) and
`OutgoingMessageAck` (= `ServerAck`, 0x81) are logged and skipped, and
every other packet — including `DublicateConnection` (0xe0) — falls into
the `_` arm, is logged as unhandled, and the loop continues. -/
def receiveModel (env : Env) : List (Packet × List Nat) → List Effect →
    ReceiveOutcome
  | [], eff => .outOfInput eff
  | (p, payload) :: rest, eff =>
    match p with
    | .ServerToClient hdr =>
      match handleIncoming env hdr payload with
      | (e2, .panic) => .panic
      | (e2, .fail er) => .fail (eff ++ e2) er
      | (e2, .ok m) => .msg (eff ++ e2) m
    | .ConnectionEstablished => receiveModel env rest eff
    | .ServerAck _ _ => receiveModel env rest eff
    | _ => receiveModel env rest eff

/-- The `Nonce` of src/lib.rs: a 16-byte random prefix (field `pre`
models `prefix`) and a `u64` counter appended little-endian. -/
structure NonceT where
  pre : List Nat
  counter : Nat
deriving DecidableEq, Repr

/-- `Nonce::new`: counter starts at 1. -/
def NonceT.new (p : List Nat) : NonceT := ⟨p, 1⟩

/-- `Nonce::as_bytes`: prefix followed by the counter little-endian. -/
def NonceT.asBytes (n : NonceT) : List Nat := n.pre ++ leBytes 8 n.counter

/-- `Nonce::as_nonce`: `box_::Nonce::from_slice` succeeds iff the byte
form is exactly 24 bytes. -/
def NonceT.asNonce (n : NonceT) : Option (List Nat) :=
  if n.asBytes.length = 24 then some n.asBytes else none

/-- `Nonce::inc`. -/
def NonceT.inc (n : NonceT) : NonceT := ⟨n.pre, n.counter + 1⟩

/-- `SERVER_LONG_TERM_PUBKEY` (src/lib.rs). -/
def serverLongTermPubkey : List Nat :=
  [69, 11, 151, 87, 53, 39, 159, 222, 203, 51, 19, 100, 143, 95, 198, 238,
   159, 244, 54, 14, 169, 42, 140, 23, 81, 198, 97, 228, 192, 216, 201, 9]

/-- What the login step of `Threema::connect` produces. -/
structure LoginResult where
  inner : List Nat
  outerPlain : List Nat
  outer : List Nat
  clientCounter : Nat
deriving DecidableEq, Repr

/-- The vouch-and-login step of `Threema::connect` (src/lib.rs:261-287),
starting after the server hello has been opened and the server nonce
incremented.  `seal pt nonce peerPub senderSec` models `box_::seal`.  The
code seals the ephemeral public key to the server long-term key under a
fresh payload nonce (counter 1), builds
`id || 32 zero bytes || server_nonce_prefix || payload_nonce || inner`,
seals that to the server's ephemeral key under the client nonce
(counter 1), writes it, and only then increments the client counter. -/
def connectLogin (sealFn : List Nat → List Nat → List Nat → List Nat → List Nat)
    (idBytes privKey ephPub ephPriv : List Nat)
    (clientPre serverPre payloadPre serverEphPub : List Nat) : LoginResult :=
  let clientNonce := NonceT.new clientPre
  let payloadNonce := NonceT.new payloadPre
  let inner := sealFn ephPub payloadNonce.asBytes serverLongTermPubkey privKey
  let outerPlain :=
    idBytes ++ List.replicate 32 0 ++ serverPre ++ payloadNonce.asBytes ++ inner
  let outer := sealFn outerPlain clientNonce.asBytes serverEphPub ephPriv
  let clientNonce1 := clientNonce.inc
  ⟨inner, outerPlain, outer, clientNonce1.counter⟩

/-- The connection-dependent state `Threema::send` reads: the client
nonce, the server's ephemeral public key, the session's ephemeral private
key and the TCP connection, each absent until `connect` succeeds. -/
structure SendState where
  clientNonce : Option NonceT
  serverPubkey : Option (List Nat)
  ephPriv : Option (List Nat)
  connPresent : Bool
deriving Repr

/-- `Threema::send` (src/lib.rs:311-336): seal the payload under the
client nonce (`NotConnected` if the nonce, server key, ephemeral key or
connection is absent), write the `u16` length prefix, write the sealed
bytes (either write can fail with `Io`), and increment the client nonce
only after both writes succeeded.  `io1`/`io2` are the success of the two
`write_all` calls. -/
def sendModel (st : SendState) (io1 io2 : Bool) :
    Except ErrorK Unit × SendState :=
  match st.clientNonce.bind NonceT.asNonce with
  | none => (.error .NotConnected, st)
  | some _ =>
    match st.serverPubkey with
    | none => (.error .NotConnected, st)
    | some _ =>
      match st.ephPriv with
      | none => (.error .NotConnected, st)
      | some _ =>
        if ¬ st.connPresent then (.error .NotConnected, st)
        else if ¬ io1 then (.error .Io, st)
        else if ¬ st.connPresent then (.error .NotConnected, st)
        else if ¬ io2 then (.error .Io, st)
        else (.ok (), { st with clientNonce := st.clientNonce.map NonceT.inc })

end Threema

/-- The `Foo` enum of the flat-bytes test suite (`repr(u8)`,
`Bar = 1`, `Baz(bool) = 3`, `Blubb { a: bool, b: u8 }` with resolved
discriminant 4), used as a concrete schema instance. -/
def fooSchema : Flat.Schema :=
  .unionCons 1 1 .recNil
    (.unionCons 1 3 (.recCons .bool .recNil)
      (.unionCons 1 4 (.recCons .bool (.recCons (.uint 1) .recNil))
        (.unionNil 1)))

/-- `Foo::Baz(true)`. -/
def fooBaz : Flat.Value := .union 3 (.cons (.bool true) .nil)

/-- `Foo::Blubb { a: false, b: 2 }`. -/
def fooBlubb : Flat.Value := .union 4 (.cons (.bool false) (.cons (.uint 2) .nil))

/-- Claim C1: for every schema type of the flat codec (primitive integers,
bool, fixed arrays, derived records, tagged unions) and every schema-valid
value `v`, `deserialize_with_size(serialize(v))` succeeds and returns
exactly `(v, len(serialize(v)))`. -/
theorem c1_flat_roundtrip (s : Flat.Schema) (v : Flat.Value)
    (hwf : Flat.wellFormed s = true) (hv : Flat.valid s v = true) :
    Flat.deserialize s (Flat.serialize s v) =
      some (v, (Flat.serialize s v).length) := by
  have h := Flat.roundtrip_append s v [] hwf hv
  rwa [List.append_nil] at h

/-- Concrete round-trip instance of C1: `Foo::Blubb { a: false, b: 2 }`
serializes to `[4, 0, 2]` and deserializes back, consuming 3 bytes. -/
theorem c1_flat_roundtrip_witness :
    Flat.wellFormed fooSchema = true ∧ Flat.valid fooSchema fooBlubb = true ∧
    Flat.serialize fooSchema fooBlubb = [4, 0, 2] ∧
    Flat.deserialize fooSchema (Flat.serialize fooSchema fooBlubb) =
      some (fooBlubb, (Flat.serialize fooSchema fooBlubb).length) :=
  ⟨by decide,
   by simp [fooSchema, fooBlubb, Flat.valid, Flat.validElems],
   by simp [fooSchema, fooBlubb, Flat.serialize, Flat.serializeElems, leBytes],
   c1_flat_roundtrip fooSchema fooBlubb (by decide)
     (by simp [fooSchema, fooBlubb, Flat.valid, Flat.validElems])⟩

/-- Claim C2 fails as stated: a first variant without an explicit
discriminant is assigned tag 1, not 0, because `last_idx` starts at 0 and
the variant takes `last_idx + 1`. -/
theorem c2_first_implicit_tag_cex :
    Flat.assignDiscs 0 [Option.none] = [1] ∧ (1 : Nat) ≠ 0 :=
  ⟨rfl, by decide⟩

/-- Claim C2 amended: a variant without an explicit discriminant takes
`previous_discriminant + 1` where the previous discriminant starts at 0,
so a first variant without one gets tag 1 (not 0); an explicit
discriminant is used as given; every valid union value's serialization
begins with its assigned tag little-endian at the `repr` width and
deserializes back with the same tag assignment (both directions read the
tags off the same generated schema). -/
theorem c2_tag_assignment_amended :
    (∀ (last : Nat) (rest : List (Option Nat)),
      Flat.assignDiscs last (Option.none :: rest) =
        (last + 1) :: Flat.assignDiscs (last + 1) rest) ∧
    (∀ (last d : Nat) (rest : List (Option Nat)),
      Flat.assignDiscs last (some d :: rest) = d :: Flat.assignDiscs d rest) ∧
    (∀ (w : Nat) (vars : List (Option Nat × Flat.Schema)),
      Flat.unionTags (Flat.macroUnionSchema w 0 vars) =
        Flat.assignDiscs 0 (vars.map Prod.fst)) ∧
    (∀ (w tag : Nat) (vars : List (Option Nat × Flat.Schema))
        (payload : Flat.Value),
      Flat.wellFormed (Flat.macroUnionSchema w 0 vars) = true →
      Flat.valid (Flat.macroUnionSchema w 0 vars) (.union tag payload) = true →
      ∃ tl,
        Flat.serialize (Flat.macroUnionSchema w 0 vars) (.union tag payload) =
          leBytes w tag ++ tl ∧
        Flat.deserialize (Flat.macroUnionSchema w 0 vars) (leBytes w tag ++ tl) =
          some (.union tag payload, w + tl.length)) := by
  refine ⟨fun last rest => rfl, fun last d rest => rfl,
    fun w vars => Flat.macroUnionSchema_tags w 0 vars, ?_⟩
  intro w tag vars payload hwf hv
  obtain ⟨_, tl, htl⟩ := Flat.serialize_union_head (Flat.macroUnionSchema w 0 vars)
    w tag payload (Flat.macroUnionSchema_isUnionW w 0 vars) hwf hv
  refine ⟨tl, htl, ?_⟩
  have h := Flat.roundtrip_append (Flat.macroUnionSchema w 0 vars)
    (.union tag payload) [] hwf hv
  rw [List.append_nil, htl] at h
  simpa [List.length_append, leBytes_length] using h

/-- Concrete instance of the amended C2: the test enum `Foo` as
`flat_enum!` sees it (`Bar = 1`, `Baz = 3`, `Blubb` implicit), whose third
variant resolves to tag 4; `Foo::Blubb { a: false, b: 2 }` serializes to
tag byte 4 followed by `[0, 2]` and round-trips. -/
theorem c2_tag_assignment_witness :
    Flat.macroUnionSchema 1 0
      [(some 1, Flat.Schema.recNil),
       (some 3, Flat.Schema.recCons .bool .recNil),
       (Option.none, Flat.Schema.recCons .bool (.recCons (.uint 1) .recNil))] =
      fooSchema ∧
    Flat.assignDiscs 0 [some 1, some 3, Option.none] = [1, 3, 4] ∧
    ∃ tl,
      Flat.serialize fooSchema fooBlubb = leBytes 1 4 ++ tl ∧
      Flat.deserialize fooSchema (leBytes 1 4 ++ tl) =
        some (fooBlubb, 1 + tl.length) := by
  refine ⟨by decide, by decide, ?_⟩
  have h := c2_tag_assignment_amended.2.2.2 1 4
    [(some 1, Flat.Schema.recNil),
     (some 3, Flat.Schema.recCons .bool .recNil),
     (Option.none, Flat.Schema.recCons .bool (.recCons (.uint 1) .recNil))]
    (.cons (.bool false) (.cons (.uint 2) .nil))
    (by decide)
    (by simp [Flat.macroUnionSchema, Flat.valid, Flat.validElems])
  simpa [fooSchema, fooBlubb] using h

/-- Claim C3 fails on the code: `randombytes_uniform(32)` draws the pad
uniformly from `0..=31`, not `1..=32`.  On the draw 0 — for instance when
sending `Text("\u{0}")`, whose serialized body is `[0x01, 0x00]` — no
padding byte is appended, the appended count 0 lies outside `1..=32`, and
the last byte of the padded plaintext is 0. -/
theorem c3_padding_draw_zero :
    Threema.padMessage 0 [1, 0] = [1, 0] ∧
    (Threema.padMessage 0 [1, 0]).getLast? = some 0 ∧
    (List.replicate 0 (0 : Nat)).length = 0 ∧ ¬ (1 ≤ (0 : Nat)) := by
  decide

/-- Claim C4 fails on the code: the padding strip of `Threema::receive`
performs no validation.  A decrypted plaintext `[0x21]` (pad byte 33 >
length 1) panics in the slice `&data[..data.len() - pad]`, an empty
plaintext panics in `data.last().unwrap()`, and a pad byte of 0 — outside
`1..=32` — is accepted and trims nothing. -/
theorem c4_depad_unchecked :
    Threema.depad [33] = .panicked ∧
    Threema.depad [] = .panicked ∧
    Threema.depad [5, 0] = .ok [5, 0] := by
  decide

/-- Claim C5 fails on the code: a backup string whose base32 decoding is
shorter than 8 bytes (for example the empty string, which decodes to 0
bytes, well below the 82 of the claim) makes `identity::decrypt` panic in
`split_at(8)` before any cryptography runs, so `from_backup` panics
instead of returning `InvalidBackupOrPassword` — for every keystream and
hash collaborator. -/
theorem c5_backup_short_panics :
    ∀ (streamXor : List Nat → List Nat → List Nat)
      (hashPair : List Nat → List Nat → List Nat),
      Threema.base32 [] = some [] ∧
      Threema.fromBackupModel streamXor hashPair [] = .panicked :=
  fun _ _ => ⟨rfl, rfl⟩

/-- Claim C6 fails as stated: a frame whose decrypted packet is
`DublicateConnection` (tag 0xe0) does not make `receive` return an error —
the error type has no `Disconnected` kind at all — and the loop keeps
pulling further frames (here: runs out of supplied input instead of
failing). -/
theorem c6_duplicate_connection_cex :
    Threema.packetTag .DublicateConnection = 0xe0 ∧
    Threema.receiveModel ⟨.ok, fun _ => none, fun _ => none⟩
      [(Threema.Packet.DublicateConnection, [])] [] = .outOfInput [] :=
  ⟨rfl, rfl⟩

/-- Claim C6 amended: when `receive` reads a frame whose decrypted packet
tag is 0xe0 (`DublicateConnection`), the packet falls into the match's
catch-all arm, is logged as unhandled, and the loop continues with the
next frame; no `Disconnected` error kind exists in the error type. -/
theorem c6_duplicate_connection_amended :
    Threema.packetTag .DublicateConnection = 0xe0 ∧
    ∀ (env : Threema.Env) (payload : List Nat)
      (rest : List (Threema.Packet × List Nat)) (eff : List Threema.Effect),
      Threema.receiveModel env
        ((Threema.Packet.DublicateConnection, payload) :: rest) eff =
        Threema.receiveModel env rest eff :=
  ⟨rfl, fun _ _ _ _ => rfl⟩

/-- Claim C7 fails as stated: the `Text` body codec is greedy, so
truncating `serialize(Text("hi")) = [0x68, 0x69]` by one byte still
deserializes — to `Text("h")` with 1 byte consumed — instead of failing. -/
theorem c7_text_truncation_cex :
    Threema.Text.serialize ⟨[104, 105]⟩ = [104, 105] ∧
    Threema.Text.deserialize_with_size
      ((Threema.Text.serialize ⟨[104, 105]⟩).dropLast) = some (⟨[104]⟩, 1) := by
  decide

/-- Claim C7 amended: truncating the serialization of a schema-valid value
by one byte yields deserialization failure for every fixed-layout schema
type of the flat codec (primitive integers, bool, fixed arrays, derived
records, tagged unions) whenever the serialization is nonempty; the one
exception is the greedy `Text` body, which accepts any remaining
valid-UTF-8 input and so can deserialize successfully from truncated
input. -/
theorem c7_truncation_fixed_layout_amended (s : Flat.Schema) (v : Flat.Value)
    (hwf : Flat.wellFormed s = true) (hv : Flat.valid s v = true)
    (hne : Flat.serialize s v ≠ []) :
    Flat.deserialize s (Flat.serialize s v).dropLast = none :=
  Flat.deserialize_truncated s v hwf hv hne

/-- Concrete instance of the amended C7: `Foo::Baz(true)` serializes to
`[3, 1]` and the truncation `[3]` fails to deserialize. -/
theorem c7_truncation_witness :
    Flat.wellFormed fooSchema = true ∧ Flat.valid fooSchema fooBaz = true ∧
    Flat.serialize fooSchema fooBaz ≠ [] ∧
    Flat.deserialize fooSchema (Flat.serialize fooSchema fooBaz).dropLast =
      none :=
  ⟨by decide,
   by simp [fooSchema, fooBaz, Flat.valid, Flat.validElems],
   by simp [fooSchema, fooBaz, Flat.serialize, Flat.serializeElems, leBytes],
   c7_truncation_fixed_layout_amended fooSchema fooBaz (by decide)
     (by simp [fooSchema, fooBaz, Flat.valid, Flat.validElems])
     (by simp [fooSchema, fooBaz, Flat.serialize, Flat.serializeElems, leBytes])⟩

/-- Claim C8: for every inbound end-to-end message that is successfully
decrypted, de-padded and decoded (the receive loop returns it), a
`DeliveryReceipt` is sent back to the sender if and only if the decoded
message kind is neither `TypingNotification` nor `DeliveryReceipt`. -/
theorem c8_receipt_iff (env : Threema.Env) (hdr : Threema.Header)
    (payload : List Nat) (eff : List Threema.Effect)
    (m : Threema.ServerMessage)
    (h : Threema.receiveModel env
      [(Threema.Packet.ServerToClient hdr, payload)] [] = .msg eff m) :
    (Threema.Effect.receiptSent hdr.sender hdr.msg_id ∈ eff) ↔
      (m.data ≠ .TypingNotification ∧
        ∀ st mid, m.data ≠ .DeliveryReceipt st mid) := by
  simp only [Threema.receiveModel] at h
  rcases hh : Threema.handleIncoming env hdr payload with ⟨e2, out⟩
  rw [hh] at h
  cases out with
  | panic => simp at h
  | fail e => simp at h
  | ok m' =>
    simp only [List.nil_append] at h
    injection h with h1 h2
    subst h1
    subst h2
    simp only [Threema.handleIncoming] at hh
    split at hh
    · simp at hh
    · simp at hh
    · split at hh
      · simp at hh
      · split at hh
        · simp at hh
        · split at hh
          · simp at hh
          · rename_i plain _ body msg sz heq
            split at hh
            · rw [Prod.mk.injEq] at hh
              obtain ⟨he, hm⟩ := hh
              subst he
              injection hm with hm
              subst hm
              simp
            · rename_i st mid
              rw [Prod.mk.injEq] at hh
              obtain ⟨he, hm⟩ := hh
              subst he
              injection hm with hm
              subst hm
              constructor
              · intro hmem
                exact absurd hmem (by simp)
              · rintro ⟨h1, h2⟩
                exact absurd rfl (h2 st mid)
            · rename_i hne1 hne2
              rw [Prod.mk.injEq] at hh
              obtain ⟨he, hm⟩ := hh
              subst he
              injection hm with hm
              subst hm
              simp only [List.mem_append, List.mem_singleton, or_true,
                true_iff]
              exact ⟨hne1, fun st mid => hne2 st mid⟩

/-- Concrete instance of C8: a decrypted, de-padded, decoded `Text`
message produces both the transport ack and a delivery receipt to the
sender. -/
theorem c8_receipt_iff_witness :
    (Threema.Effect.receiptSent [65] [67] ∈
      [Threema.Effect.ackSent [65] [67], Threema.Effect.receiptSent [65] [67]]) ↔
      ((Threema.ServerMessage.mk [67] [65] (.Text ⟨[104]⟩)).data ≠
          .TypingNotification ∧
        ∀ st mid, (Threema.ServerMessage.mk [67] [65] (.Text ⟨[104]⟩)).data ≠
          .DeliveryReceipt st mid) :=
  c8_receipt_iff
    ⟨.ok, fun _ => some [1, 104, 1], fun _ => some (.Text ⟨[104]⟩, 2)⟩
    ⟨[65], [66], [67], 0, 1, [], []⟩ [] _ _ rfl

/-- Claim C9: the outer login plaintext of the handshake is exactly the
128 bytes `identity[8] || zeros[32] || server_nonce_prefix[16] ||
payload_nonce[24] || inner[48]`, where `inner` is the 48-byte box-seal of
the client's ephemeral public key under the fresh payload nonce with
counter 1 to the server long-term key using the long-term secret; the
outer seal is computed under the client nonce with counter 1 to the
server's ephemeral key, yields 144 bytes, and the client counter is 2
afterwards.  `box_::seal` is any function adding the 16-byte NaCl
authenticator. -/
theorem c9_login_layout
    (sealFn : List Nat → List Nat → List Nat → List Nat → List Nat)
    (idBytes privKey ephPub ephPriv : List Nat)
    (clientPre serverPre payloadPre serverEphPub : List Nat)
    (hseal : ∀ pt n pk sk, (sealFn pt n pk sk).length = pt.length + 16)
    (hid : idBytes.length = 8) (hsp : serverPre.length = 16)
    (hpp : payloadPre.length = 16) (hep : ephPub.length = 32) :
    (Threema.connectLogin sealFn idBytes privKey ephPub ephPriv clientPre
        serverPre payloadPre serverEphPub).inner =
      sealFn ephPub (payloadPre ++ leBytes 8 1) Threema.serverLongTermPubkey
        privKey ∧
    (Threema.connectLogin sealFn idBytes privKey ephPub ephPriv clientPre
        serverPre payloadPre serverEphPub).inner.length = 48 ∧
    (Threema.connectLogin sealFn idBytes privKey ephPub ephPriv clientPre
        serverPre payloadPre serverEphPub).outerPlain =
      idBytes ++ List.replicate 32 0 ++ serverPre ++ (payloadPre ++ leBytes 8 1) ++
        sealFn ephPub (payloadPre ++ leBytes 8 1) Threema.serverLongTermPubkey
          privKey ∧
    (Threema.connectLogin sealFn idBytes privKey ephPub ephPriv clientPre
        serverPre payloadPre serverEphPub).outerPlain.length = 128 ∧
    (Threema.connectLogin sealFn idBytes privKey ephPub ephPriv clientPre
        serverPre payloadPre serverEphPub).outer =
      sealFn ((Threema.connectLogin sealFn idBytes privKey ephPub ephPriv
          clientPre serverPre payloadPre serverEphPub).outerPlain)
        (clientPre ++ leBytes 8 1) serverEphPub ephPriv ∧
    (Threema.connectLogin sealFn idBytes privKey ephPub ephPriv clientPre
        serverPre payloadPre serverEphPub).outer.length = 144 ∧
    (Threema.connectLogin sealFn idBytes privKey ephPub ephPriv clientPre
        serverPre payloadPre serverEphPub).clientCounter = 2 := by
  refine ⟨rfl, ?_, rfl, ?_, rfl, ?_, rfl⟩ <;>
    simp [Threema.connectLogin, Threema.NonceT.new, Threema.NonceT.asBytes,
      Threema.NonceT.inc, hseal, List.length_append, leBytes_length,
      hid, hsp, hpp, hep]

/-- Concrete instance of C9 with a length-faithful model seal. -/
theorem c9_login_layout_witness :
    (Threema.connectLogin (fun pt _ _ _ => List.replicate 16 0 ++ pt)
        (List.replicate 8 65) (List.replicate 32 4) (List.replicate 32 3)
        (List.replicate 32 7) (List.replicate 16 5) (List.replicate 16 1)
        (List.replicate 16 2) (List.replicate 32 6)).outerPlain.length = 128 ∧
    (Threema.connectLogin (fun pt _ _ _ => List.replicate 16 0 ++ pt)
        (List.replicate 8 65) (List.replicate 32 4) (List.replicate 32 3)
        (List.replicate 32 7) (List.replicate 16 5) (List.replicate 16 1)
        (List.replicate 16 2) (List.replicate 32 6)).outer.length = 144 ∧
    (Threema.connectLogin (fun pt _ _ _ => List.replicate 16 0 ++ pt)
        (List.replicate 8 65) (List.replicate 32 4) (List.replicate 32 3)
        (List.replicate 32 7) (List.replicate 16 5) (List.replicate 16 1)
        (List.replicate 16 2) (List.replicate 32 6)).clientCounter = 2 := by
  have h := c9_login_layout (fun pt _ _ _ => List.replicate 16 0 ++ pt)
    (List.replicate 8 65) (List.replicate 32 4) (List.replicate 32 3)
    (List.replicate 32 7) (List.replicate 16 5) (List.replicate 16 1)
    (List.replicate 16 2) (List.replicate 32 6)
    (fun pt n pk sk => by simp) (by simp) (by simp) (by simp) (by simp)
  exact ⟨h.2.2.2.1, h.2.2.2.2.2.1, h.2.2.2.2.2.2⟩

/-- Claim C10: whenever `Threema::send` returns an error — `NotConnected`
because the nonce, server key, ephemeral key or connection is absent, or
`Io` from either write — the client nonce counter is unchanged; on
success the counter is incremented exactly once, which happens only after
both writes succeeded. -/
theorem c10_send_counter (st : Threema.SendState) (io1 io2 : Bool) :
    (∀ e, (Threema.sendModel st io1 io2).1 = .error e →
      (Threema.sendModel st io1 io2).2 = st) ∧
    ((Threema.sendModel st io1 io2).1 = .ok () →
      io1 = true ∧ io2 = true ∧
      ∃ n, st.clientNonce = some n ∧
        (Threema.sendModel st io1 io2).2.clientNonce =
          some ⟨n.pre, n.counter + 1⟩) := by
  rcases hb : st.clientNonce.bind Threema.NonceT.asNonce with _ | nb
  · simp [Threema.sendModel, hb]
  · rcases hpk : st.serverPubkey with _ | pk
    · simp [Threema.sendModel, hb, hpk]
    · rcases hep : st.ephPriv with _ | ep
      · simp [Threema.sendModel, hb, hpk, hep]
      · cases hc : st.connPresent
        · simp [Threema.sendModel, hb, hpk, hep, hc]
        · cases h1 : io1
          · simp [Threema.sendModel, hb, hpk, hep, hc, h1]
          · cases h2 : io2
            · simp [Threema.sendModel, hb, hpk, hep, hc, h1, h2]
            · rcases hn : st.clientNonce with _ | n
              · rw [hn] at hb
                simp at hb
              · have hb2 : Threema.NonceT.asNonce n = some nb := by
                  rw [hn] at hb
                  simpa using hb
                refine ⟨fun e he => absurd he (by
                  simp [Threema.sendModel, hb, hpk, hep, hc, h1, h2]), ?_⟩
                intro _
                refine ⟨rfl, rfl, n, rfl, ?_⟩
                simp [Threema.sendModel, hb, hpk, hep, hc, h1, h2, hn, hb2,
                  Threema.NonceT.inc]
